import Mathlib

/-!
Verification of the i18n code generator of `plabayo/news`
(`plabayo-news-builder/src/i18n/codegen.rs`).

The development embeds, as executable Lean functions:
* the fallback-merge engine `LocaleStringWithDefaultIter` (state machine and
  collected output);
* the schema emitter `generate_locales_strings_struct`;
* the instance emitter `generate_locales_strings_instance`;
* the locale-enum emitter `generate_locales_enum` and the driver
  `generate_locales`.

Emitted text is modelled as a list of `Chunk`s, one per `write_all` call in
the source; `Chunk.render` reproduces the exact written text.  The identifier
case conversions (`convert_case`, an external crate) are passed in as function
parameters `snake`, `pascal`, `screaming`, `kebab`.
-/

namespace News

/-- A key path together with its raw string value.  Mirrors
`StringValuePathPair` of `plabayo-news-builder/src/i18n/locales.rs`; the
struct's two fields are visible at every use site in `codegen.rs`. -/
structure StringValuePathPair where
  path : List String
  value : String
deriving DecidableEq

/-- Lexicographic comparison of character lists, shorter prefix first. -/
def charListLt : List Char → List Char → Bool
  | _, [] => false
  | [], _ :: _ => true
  | c :: cs, d :: ds => if c < d then true else if d < c then false else charListLt cs ds

/-- Strict string comparison.  Rust orders `String`s byte-wise
lexicographically on their UTF-8 encoding, which coincides with
lexicographic order on the scalar values. -/
def strLt (a b : String) : Bool :=
  charListLt a.data b.data

/-- Modelled from the spec: `locales.rs`, which declares the ordering of
`StringValuePathPair`, is not among the sources.  Spec section 3 fixes the
comparator as segment-wise lexicographic ordering on the raw (untransformed)
segment strings, with a shorter prefix sorting first on ties.  `pathLt` is
that strict order on key paths. -/
def pathLt : List String → List String → Bool
  | _, [] => false
  | [], _ :: _ => true
  | a :: as, b :: bs =>
    if strLt a b = true then true
    else if strLt b a = true then false
    else pathLt as bs

/-- Modelled from the spec: `pair < next_default_pair` in
`LocaleStringWithDefaultIter::next` compares the key paths with the shared
comparator. -/
def pairLt (a b : StringValuePathPair) : Bool :=
  pathLt a.path b.path

/-- Modelled from the spec: `pair == next_default_pair` in
`LocaleStringWithDefaultIter::next` holds when the key paths are equal
("If the current L entry's path equals `d`", spec section 4.3). -/
def pairEq (a b : StringValuePathPair) : Bool :=
  decide (a.path = b.path)

/-- A catalog is sorted: strictly increasing in the shared path order.
Strictness also rules out duplicate paths (spec section 3). -/
@[reducible] def Sorted (l : List StringValuePathPair) : Prop :=
  List.Pairwise (fun a b => pairLt a b = true) l

/-- The raw-string wrapping applied to owned literal values, matching the
format string of `codegen.rs`: an `r`, sixteen `#`, a quote, the value, a
quote, sixteen `#`. -/
def rawQuote (v : String) : String :=
  "r################\"" ++ v ++ "\"################"

/-- The symbolic fallback reference emitted for a default path that is absent
from a locale catalog: `STRINGS_DEFAULT.` followed by the snake-cased
segments joined with dots. -/
def fallbackValue (snake : String → String) (p : List String) : String :=
  "STRINGS_DEFAULT." ++ String.intercalate (".") (p.map snake)

/-- The state of `LocaleStringWithDefaultIter`. -/
structure MergeState where
  pairs : List StringValuePathPair
  default_pairs : List StringValuePathPair
  next_pair : Option StringValuePathPair
  next_default_pair : Option StringValuePathPair
deriving DecidableEq

/-- `LocaleStringWithDefaultIter::new`: pull the first default pair into the
lookahead slot. -/
def MergeState.new (pairs default_pairs : List StringValuePathPair) : MergeState :=
  ⟨pairs, default_pairs.tail, none, default_pairs.head?⟩

/-- The item produced when the locale catalog owns the current path. -/
def mergeEmitLiteral (p : StringValuePathPair) : StringValuePathPair :=
  ⟨p.path, rawQuote p.value⟩

/-- The item produced when the current default path is missing from the
locale catalog. -/
def mergeEmitFallback (snake : String → String) (d : StringValuePathPair) : StringValuePathPair :=
  ⟨d.path, fallbackValue snake d.path⟩

/-- The inner `loop` of `LocaleStringWithDefaultIter::next`.  The loop reads
the peeked `next_pair` first and then pops `pairs`; its input is therefore
modelled as the single stream `next_pair.toList ++ pairs`.  Entries sorting
strictly before the default entry `d` are skipped; on equality a literal is
produced; past `d` a fallback is produced and the read entry is kept in
`next_pair` for the next call. -/
def mergeLoopGo (snake : String → String) (d : StringValuePathPair) :
    List StringValuePathPair → List StringValuePathPair →
    StringValuePathPair × MergeState
  | [], dps =>
    (mergeEmitFallback snake d, ⟨[], dps.tail, none, dps.head?⟩)
  | p :: ps, dps =>
    if pairEq p d = true then
      (mergeEmitLiteral p, ⟨ps, dps.tail, none, dps.head?⟩)
    else if pairLt p d = true then
      mergeLoopGo snake d ps dps
    else
      (mergeEmitFallback snake d, ⟨ps, dps.tail, some p, dps.head?⟩)

/-- `LocaleStringWithDefaultIter::next`: `None` once the default pairs are
exhausted, otherwise one step of the inner loop. -/
def mergeNext (snake : String → String) (s : MergeState) :
    Option (StringValuePathPair × MergeState) :=
  match s.next_default_pair with
  | none => none
  | some d => some (mergeLoopGo snake d (s.next_pair.toList ++ s.pairs) s.default_pairs)

/-- Draining the iterator, as `collect()` does in `generate_locales`. -/
def mergeCollect (snake : String → String) (s : MergeState) : List StringValuePathPair :=
  match h : mergeNext snake s with
  | none => []
  | some ps => ps.1 :: mergeCollect snake ps.2
termination_by s.next_default_pair.elim 0 (fun _ => 1) + s.default_pairs.length
decreasing_by
  have key : ∀ (L dps : List StringValuePathPair) (d : StringValuePathPair),
      (mergeLoopGo snake d L dps).2.next_default_pair = dps.head? ∧
      (mergeLoopGo snake d L dps).2.default_pairs = dps.tail := by
    intro L
    induction L with
    | nil => intro dps d; exact ⟨rfl, rfl⟩
    | cons p ps ih =>
      intro dps d
      by_cases h1 : pairEq p d = true
      · simp [mergeLoopGo, h1]
      · by_cases h2 : pairLt p d = true
        · simpa [mergeLoopGo, h1, h2] using ih dps d
        · simp [mergeLoopGo, h1, h2]
  simp only [mergeNext] at h
  cases hnd : s.next_default_pair with
  | none => rw [hnd] at h; cases h
  | some d =>
    rw [hnd] at h
    injection h with h2
    rw [← h2]
    obtain ⟨k1, k2⟩ := key (s.next_pair.toList ++ s.pairs) s.default_pairs d
    rw [k1, k2]
    cases s.default_pairs with
    | nil => simp
    | cons x xs => simp

/-- The full merge of one locale catalog `pairs` against the default catalog
`default_pairs`, exactly as `generate_locales` builds it:
`LocaleStringWithDefaultIter::new(pairs, default_pairs).collect()`. -/
def merge (snake : String → String) (pairs default_pairs : List StringValuePathPair) :
    List StringValuePathPair :=
  mergeCollect snake (MergeState.new pairs default_pairs)

/-- List-level restatement of the merge recursion, used to organise the
proofs; `merge_eq_mergeAux` proves it equal to `merge`. -/
def mergeAux (snake : String → String) :
    List StringValuePathPair → List StringValuePathPair → List StringValuePathPair
  | _, [] => []
  | [], d :: ds => mergeEmitFallback snake d :: mergeAux snake [] ds
  | p :: ps, d :: ds =>
    if pairEq p d = true then mergeEmitLiteral p :: mergeAux snake ps ds
    else if pairLt p d = true then mergeAux snake ps (d :: ds)
    else mergeEmitFallback snake d :: mergeAux snake (p :: ps) ds
termination_by L D => L.length + D.length

/-- One `write_all` call of the generators, tagged by its write site.
`Chunk.render` reproduces the exact text written at that site. -/
inductive Chunk where
  | rootHeader
  | closeStruct
  | structHeader (name : String)
  | leafField (field : String)
  | nestedField (field : String) (ty : String)
  | schemaFooter
  | instHeader (name : String)
  | openGroup (indent : Nat) (field : String) (ty : String)
  | closeGroup (indent : Nat)
  | leaf (indent : Nat) (field : String) (value : String)
  | instFooter
  | enumHeader
  | enumVariant (variant : String)
  | enumFooter
  | stringsImplHeader
  | stringsArm (variant : String) (target : String)
  | stringsImplClose
  | asStrHeader
  | asStrArm (variant : String) (kebabName : String)
  | asStrClose
  | fromStrHeader
  | fromStrArm (pat : String) (variant : String)
  | fromStrWildcard
  | fromStrClose
  | defaultConst (variant : String)
deriving DecidableEq

/-- Four spaces per indentation level, as in `"    ".repeat(n)`. -/
def indentStr (n : Nat) : String :=
  String.join (List.replicate n ("    "))

/-- A single-quote character, used in the rendered `&'static str` type. -/
def sq : String :=
  String.singleton (Char.ofNat 39)

/-- The exact text each write site of `codegen.rs` produces. -/
def Chunk.render : Chunk → String
  | .rootHeader => "pub struct Strings \x7b\n"
  | .closeStruct => "\x7d\n\n"
  | .structHeader name => "pub struct Strings" ++ name ++ " \x7b\n"
  | .leafField field => "    pub " ++ field ++ ": &" ++ sq ++ "static str,\n"
  | .nestedField field ty => "    pub " ++ field ++ ": Strings" ++ ty ++ ",\n"
  | .schemaFooter => "\x7d\n"
  | .instHeader name => "\nconst " ++ name ++ ": Strings = Strings \x7b\n"
  | .openGroup indent field ty =>
      indentStr indent ++ field ++ ": Strings" ++ ty ++ " \x7b\n"
  | .closeGroup indent => indentStr indent ++ "\x7d,\n"
  | .leaf indent field value => indentStr indent ++ field ++ ": " ++ value ++ ",\n"
  | .instFooter => "\x7d;\n"
  | .enumHeader => "pub enum Locales \x7b\n"
  | .enumVariant variant => "    " ++ variant ++ ",\n"
  | .enumFooter => "\x7d\n\n"
  | .stringsImplHeader =>
      "impl Locales \x7b\n    pub fn strings(&self) -> &Strings \x7b\n        match self \x7b\n"
  | .stringsArm variant target =>
      "            Self::" ++ variant ++ " => &STRINGS_" ++ target ++ ",\n"
  | .stringsImplClose => "        \x7d\n    \x7d\n\n"
  | .asStrHeader => "    pub fn as_str(&self) -> &str \x7b\n        match self \x7b"
  | .asStrArm variant kebabName =>
      "\n            Self::" ++ variant ++ " => \"" ++ kebabName ++ "\","
  | .asStrClose => "\n        \x7d\n    \x7d\n\x7d\n\n"
  | .fromStrHeader =>
      "impl From<&str> for Locales \x7b\n    fn from(s: &str) -> Self \x7b\n        match s.to_lowercase().trim() \x7b\n"
  | .fromStrArm pat variant => "            \"" ++ pat ++ "\" => Self::" ++ variant ++ ",\n"
  | .fromStrWildcard => "            _ => DEFAULT_LOCALE,\n"
  | .fromStrClose => "        \x7d\n    \x7d\n\x7d\n\n"
  | .defaultConst variant => "pub const DEFAULT_LOCALE: Locales = Locales::" ++ variant ++ ";\n\n"

/-- Character-wise lowercasing, modelling Rust's `str::to_lowercase`
(`Char.toLower` lowers the ASCII range, which covers locale identifiers). -/
def toLowerStr (s : String) : String :=
  ⟨s.data.map Char.toLower⟩

/-- Whitespace trimming at both ends, modelling Rust's `str::trim`. -/
def trimStr (s : String) : String :=
  ⟨((s.data.dropWhile Char.isWhitespace).reverse.dropWhile Char.isWhitespace).reverse⟩

/-- `path[..k].iter().map(Pascal).join("")`: type-name suffix formed by the
concatenated case-converted prefix segments. -/
def pascalConcat (pascal : String → String) (segs : List String) : String :=
  String.join (segs.map pascal)

/-- One pass of the layer loop of `generate_locales_strings_struct`: walk the
paths of the current layer carrying `previous` (the segment at `layer - 1`
that decides when a new struct is opened) and `previous_property` (the last
nested field name written), returning the emitted chunks and the retained
paths. -/
def structLayer (snake pascal : String → String) (layer : Nat) :
    List (List String) → Option String → Option String →
    List Chunk × List (List String)
  | [], _, _ => ([], [])
  | path :: rest, previous, previous_property =>
    let current : Option String :=
      if layer = 0 then none else some (path.getD (layer - 1) (""))
    let headerChunks : List Chunk :=
      if previous ≠ current then
        [Chunk.closeStruct, Chunk.structHeader (pascalConcat pascal (path.take layer))]
      else []
    let previous1 : Option String := if previous ≠ current then current else previous
    let key : String := path.getD layer ("")
    let isLeafHere : Bool := decide (path.length = layer + 1)
    let fieldChunks : List Chunk :=
      if isLeafHere then [Chunk.leafField (snake key)]
      else if some key ≠ previous_property then
        [Chunk.nestedField (snake key) (pascalConcat pascal (path.take (layer + 1)))]
      else []
    let previous_property1 : Option String :=
      if isLeafHere then previous_property
      else if some key ≠ previous_property then some key
      else previous_property
    let retainedHere : List (List String) := if isLeafHere then [] else [path]
    let next := structLayer snake pascal layer rest previous1 previous_property1
    (headerChunks ++ fieldChunks ++ next.1, retainedHere ++ next.2)

/-- The `while !paths.is_empty()` loop of `generate_locales_strings_struct`.
The loop runs at most `maxPathLen + 1` iterations on any input on which the
Rust original terminates (each surviving path is consumed as a leaf at layer
`len - 1`); `fuel` makes that bound explicit. -/
def structGo (snake pascal : String → String) : Nat → Nat → List (List String) → List Chunk
  | 0, _, _ => []
  | fuel + 1, layer, paths =>
    if paths.isEmpty then []
    else
      (if layer = 0 then [Chunk.rootHeader] else [])
        ++ (structLayer snake pascal layer paths none none).1
        ++ structGo snake pascal fuel (layer + 1) (structLayer snake pascal layer paths none none).2

/-- Longest path length of the input, bounding the number of layers. -/
def maxPathLen (paths : List (List String)) : Nat :=
  paths.foldr (fun p acc => max p.length acc) 0

/-- `generate_locales_strings_struct`: the layered peeling loop followed by
the final closing brace. -/
def generate_locales_strings_struct (snake pascal : String → String)
    (paths : List (List String)) : List Chunk :=
  structGo snake pascal (maxPathLen paths + 1) 0 paths ++ [Chunk.schemaFooter]

/-- The overlap computation of the `Equal` branch of
`generate_locales_strings_instance`: count matching segments of
`zip(current, previous)` up to the first mismatch. -/
def commonPrefixLen : List String → List String → Nat
  | a :: as, b :: bs => if a = b then commonPrefixLen as bs + 1 else 0
  | _, _ => 0

/-- The opening-marker run of the instance emitter: one `openGroup` per layer
`lo, lo+1, ..., hi-1`, each naming the nested record type of the prefix
through that layer. -/
def openChunks (snake pascal : String → String) (path : List String) (lo hi : Nat) :
    List Chunk :=
  (List.range' lo (hi - lo)).map fun l =>
    Chunk.openGroup (l + 1) (snake (path.getD l (""))) (pascalConcat pascal (path.take (l + 1)))

/-- The closing-marker run of the instance emitter: `closeGroup` markers with
indents `hi, hi-1, ..., lo+1`, in that order. -/
def closeChunks (lo hi : Nat) : List Chunk :=
  ((List.range' (lo + 1) (hi - lo)).reverse).map fun l => Chunk.closeGroup l

/-- The group moves of one entry of `generate_locales_strings_instance`:
the `Greater` branch opens down to the entry's layer, the `Less` branch
closes up to it, and the `Equal` branch closes and reopens from the overlap
with the previous path when that overlap is shallower than the layer. -/
def stepMoves (snake pascal : String → String) (prevLayer : Nat)
    (prevPath : Option (List String)) (pair : StringValuePathPair) : List Chunk :=
  if prevLayer < pair.path.length - 1 then
    openChunks snake pascal pair.path prevLayer (pair.path.length - 1)
  else if pair.path.length - 1 < prevLayer then
    closeChunks (pair.path.length - 1) prevLayer
  else
    prevPath.elim [] fun pp =>
      if commonPrefixLen pair.path pp < prevLayer then
        closeChunks (commonPrefixLen pair.path pp) prevLayer
          ++ openChunks snake pascal pair.path (commonPrefixLen pair.path pp) prevLayer
      else []

/-- One entry of the instance emitter: the group moves followed by exactly
one leaf assignment at the entry's layer. -/
def stepChunks (snake pascal : String → String) (prevLayer : Nat)
    (prevPath : Option (List String)) (pair : StringValuePathPair) : List Chunk :=
  stepMoves snake pascal prevLayer prevPath pair
    ++ [Chunk.leaf (pair.path.length - 1 + 1)
          (snake (pair.path.getD (pair.path.length - 1) ("")))
          pair.value]

/-- The entry loop of `generate_locales_strings_instance`, threading
`previous_layer` and `previous_path`. -/
def emitPairs (snake pascal : String → String) :
    Nat → Option (List String) → List StringValuePathPair → List Chunk
  | _, _, [] => []
  | prevLayer, prevPath, pair :: rest =>
    stepChunks snake pascal prevLayer prevPath pair
      ++ emitPairs snake pascal (pair.path.length - 1) (some pair.path) rest

/-- The value of `previous_layer` after the entry loop. -/
def lastLayer (l : Nat) : List StringValuePathPair → Nat
  | [] => l
  | pair :: rest => lastLayer (pair.path.length - 1) rest

/-- `generate_locales_strings_instance`: header, entry loop, trailing closes
back to depth zero, footer. -/
def generate_locales_strings_instance (snake pascal : String → String)
    (const_name : String) (pairs : List StringValuePathPair) : List Chunk :=
  Chunk.instHeader const_name
    :: emitPairs snake pascal 0 none pairs
    ++ closeChunks 0 (lastLayer 0 pairs)
    ++ [Chunk.instFooter]

/-- Modelled from the spec: `Storage` of `locales.rs` is not among the
sources.  Per spec section 4.1 it exposes the default locale identifier, the
enumeration of all locale identifiers, and each locale's sorted catalog;
modelled as an association list plus the default identifier. -/
structure Storage where
  locales : List (String × List StringValuePathPair)
  default_locale : String
deriving DecidableEq

/-- All locale identifiers, in storage order. -/
def Storage.all_locales (s : Storage) : List String :=
  s.locales.map (fun q => q.1)

/-- The catalog of one locale, when present. -/
def Storage.get (s : Storage) (locale : String) : Option (List StringValuePathPair) :=
  (s.locales.find? (fun q => decide (q.1 = locale))).map (fun q => q.2)

/-- `storage.get_default()`. -/
def Storage.get_default (s : Storage) : Option (List StringValuePathPair) :=
  s.get s.default_locale

/-- `generate_locales_enum`: the enum, its `strings`/`as_str` methods, the
`From<&str>` conversion and the `DEFAULT_LOCALE` constant. -/
def generate_locales_enum (pascal screaming kebab : String → String)
    (storage : Storage) : List Chunk :=
  [Chunk.enumHeader]
    ++ storage.all_locales.map (fun l => Chunk.enumVariant (pascal l))
    ++ [Chunk.enumFooter, Chunk.stringsImplHeader]
    ++ storage.all_locales.map (fun l =>
        Chunk.stringsArm (pascal l)
          (if l = storage.default_locale then "DEFAULT" else screaming l))
    ++ [Chunk.stringsImplClose, Chunk.asStrHeader]
    ++ storage.all_locales.map (fun l => Chunk.asStrArm (pascal l) (kebab l))
    ++ [Chunk.asStrClose, Chunk.fromStrHeader]
    ++ storage.all_locales.map (fun l => Chunk.fromStrArm (trimStr (toLowerStr l)) (pascal l))
    ++ [Chunk.fromStrWildcard, Chunk.fromStrClose,
        Chunk.defaultConst (pascal storage.default_locale)]

/-- The per-locale loop at the end of `generate_locales`: for each
non-default locale, fetch its catalog (an error if missing), merge it against
the default pairs, and emit its instance. -/
def genLocalesForeign (snake pascal screaming : String → String) (storage : Storage)
    (default_pairs : List StringValuePathPair) :
    List String → Except String (List Chunk)
  | [] => .ok []
  | locale :: rest =>
    match storage.get locale with
    | none => .error ("failed to get strings for locale " ++ locale)
    | some pairs =>
      match genLocalesForeign snake pascal screaming storage default_pairs rest with
      | .error e => .error e
      | .ok more =>
        .ok (generate_locales_strings_instance snake pascal
              ("STRINGS_" ++ screaming locale)
              (merge snake pairs default_pairs)
            ++ more)

/-- `generate_locales` (its pure content; file I/O is out of scope): fail if
the default catalog is absent, then emit the enum, the schema derived from
the default paths, the default instance with raw-quoted values, and one
merged instance per other locale. -/
def generate_locales (snake pascal screaming kebab : String → String)
    (storage : Storage) : Except String (List Chunk) :=
  match storage.get_default with
  | none => .error "failed to get default locale in i18n storage"
  | some default_pairs =>
    match genLocalesForeign snake pascal screaming storage default_pairs
        (storage.all_locales.filter (fun l => decide (l ≠ storage.default_locale))) with
    | .error e => .error e
    | .ok rest =>
      .ok (generate_locales_enum pascal screaming kebab storage
          ++ generate_locales_strings_struct snake pascal
              (default_pairs.map (fun p => p.path))
          ++ generate_locales_strings_instance snake pascal "STRINGS_DEFAULT"
              (default_pairs.map (fun p => ⟨p.path, rawQuote p.value⟩))
          ++ rest)

/-- The `"{pat}" => Self::{Variant}` arms of the emitted `From<&str>` match,
in emission order. -/
def fromStrArms (chunks : List Chunk) : List (String × String) :=
  chunks.filterMap fun c =>
    match c with
    | Chunk.fromStrArm pat variant => some (pat, variant)
    | _ => none

/-- Evaluation of the emitted `From<&str>` implementation on an input string:
the scrutinee is `s.to_lowercase().trim()`, the literal arms are tried in
order, and the trailing `_ => DEFAULT_LOCALE` arm catches everything else. -/
def localesFromStr (pascal screaming kebab : String → String) (storage : Storage)
    (s : String) : String :=
  match (fromStrArms (generate_locales_enum pascal screaming kebab storage)).find?
      (fun a => decide (a.1 = trimStr (toLowerStr s))) with
  | some a => "Self::" ++ a.2
  | none => "DEFAULT_LOCALE"

/-- A merge output entry carrying owned content: its value is the raw-quoted
copy of some string (a `Literal`). -/
def IsLiteralEntry (e : StringValuePathPair) : Prop :=
  ∃ v, e.value = rawQuote v

/-- A merge output entry that is a symbolic fallback reference to the default
instance's field at its own path (a `FallbackRef`). -/
def IsFallbackEntry (snake : String → String) (e : StringValuePathPair) : Prop :=
  e.value = fallbackValue snake e.path

/-- Claim C1's property of a merge: the output has exactly one entry per
default path, in the default order, and every position is exactly one of a
literal or a fallback reference. -/
def MergeShapeOk (snake : String → String) (L D : List StringValuePathPair) : Prop :=
  (merge snake L D).length = D.length ∧
  (merge snake L D).map (fun e => e.path) = D.map (fun d => d.path) ∧
  ∀ e ∈ merge snake L D,
    (IsLiteralEntry e ∨ IsFallbackEntry snake e) ∧
    ¬(IsLiteralEntry e ∧ IsFallbackEntry snake e)

/-- Claim C7's property: merging the default catalog with itself yields the
raw-quoted default values, position by position, and no fallback reference. -/
def MergeSelfLiteral (snake : String → String) (D : List StringValuePathPair) : Prop :=
  merge snake D D = D.map mergeEmitLiteral ∧
  ∀ e ∈ merge snake D D, ¬ IsFallbackEntry snake e

/-- Claim C8's property: locale entries whose path is absent from the default
catalog never reach the output, and removing them from the locale catalog
leaves the merge unchanged. -/
def MergeDropsOrphans (snake : String → String) (L D : List StringValuePathPair) : Prop :=
  merge snake L D
    = merge snake (L.filter fun p => decide (p.path ∈ D.map (fun d => d.path))) D ∧
  ∀ q ∈ L, q.path ∉ D.map (fun d => d.path) →
    ∀ e ∈ merge snake L D, e.path ≠ q.path

/-- Claim C9's property: every default path missing from the locale catalog
is emitted as the symbolic `STRINGS_DEFAULT.`-reference at that path, never
as a raw-quoted copy of any value. -/
def FallbacksSymbolic (snake : String → String) (L D : List StringValuePathPair) : Prop :=
  ∀ d ∈ D, d.path ∉ L.map (fun p => p.path) →
    (∃ e ∈ merge snake L D, e.path = d.path) ∧
    ∀ e ∈ merge snake L D, e.path = d.path →
      e.value = fallbackValue snake d.path ∧ ∀ v, e.value ≠ rawQuote v

/-- Recogniser for opening markers of the instance emitter. -/
def isOpenChunk : Chunk → Bool
  | Chunk.openGroup _ _ _ => true
  | _ => false

/-- Recogniser for closing markers of the instance emitter. -/
def isCloseChunk : Chunk → Bool
  | Chunk.closeGroup _ => true
  | _ => false

/-- Recogniser for leaf field assignments of the instance emitter. -/
def isLeafChunk : Chunk → Bool
  | Chunk.leaf _ _ _ => true
  | _ => false

theorem charListLt_irrefl (a : List Char) : charListLt a a = false := by
  induction a with
  | nil => rfl
  | cons c cs ih => simp [charListLt, lt_irrefl, ih]

theorem charListLt_cons {c d : Char} {cs ds : List Char} :
    charListLt (c :: cs) (d :: ds) = true ↔ c < d ∨ (c = d ∧ charListLt cs ds = true) := by
  simp only [charListLt]
  rcases lt_trichotomy c d with h | h | h
  · simp [h]
  · subst h
    simp [lt_irrefl]
  · have h1 : ¬ c < d := asymm h
    have h2 : c ≠ d := fun hcd => absurd h (by rw [hcd]; exact lt_irrefl d)
    simp [h, h1, h2]

theorem charListLt_trans :
    ∀ {a b c : List Char}, charListLt a b = true → charListLt b c = true →
      charListLt a c = true := by
  intro a
  induction a with
  | nil =>
    intro b c h1 h2
    cases b with
    | nil => cases h1
    | cons y ys =>
      cases c with
      | nil => cases h2
      | cons z zs => rfl
  | cons x xs ih =>
    intro b c h1 h2
    cases b with
    | nil => cases h1
    | cons y ys =>
      cases c with
      | nil => cases h2
      | cons z zs =>
        rw [charListLt_cons] at h1 h2 ⊢
        rcases h1 with h1 | ⟨h1e, h1r⟩
        · rcases h2 with h2 | ⟨h2e, h2r⟩
          · exact Or.inl (lt_trans h1 h2)
          · exact Or.inl (h2e ▸ h1)
        · rcases h2 with h2 | ⟨h2e, h2r⟩
          · exact Or.inl (h1e ▸ h2)
          · exact Or.inr ⟨h1e.trans h2e, ih h1r h2r⟩

theorem charListLt_asymm {a b : List Char} (h : charListLt a b = true) :
    charListLt b a = false := by
  cases hc : charListLt b a with
  | false => rfl
  | true =>
    have := charListLt_trans h hc
    rw [charListLt_irrefl] at this
    cases this

theorem charListLt_eq_of_not :
    ∀ {a b : List Char}, charListLt a b = false → charListLt b a = false → a = b := by
  intro a
  induction a with
  | nil =>
    intro b h1 _
    cases b with
    | nil => rfl
    | cons y ys => cases h1
  | cons x xs ih =>
    intro b h1 h2
    cases b with
    | nil => cases h2
    | cons y ys =>
      rcases lt_trichotomy x y with h | h | h
      · rw [show charListLt (x :: xs) (y :: ys) = true from charListLt_cons.mpr (Or.inl h)] at h1
        cases h1
      · subst h
        simp only [charListLt, lt_irrefl, if_neg (lt_irrefl x), if_false] at h1 h2
        exact congrArg (x :: ·) (ih h1 h2)
      · rw [show charListLt (y :: ys) (x :: xs) = true from charListLt_cons.mpr (Or.inl h)] at h2
        cases h2

theorem strLt_irrefl (a : String) : strLt a a = false :=
  charListLt_irrefl a.data

theorem strLt_trans {a b c : String} (h1 : strLt a b = true) (h2 : strLt b c = true) :
    strLt a c = true :=
  charListLt_trans h1 h2

theorem strLt_asymm {a b : String} (h : strLt a b = true) : strLt b a = false :=
  charListLt_asymm h

theorem strLt_eq_of_not {a b : String} (h1 : strLt a b = false) (h2 : strLt b a = false) :
    a = b := by
  cases a with
  | mk da =>
    cases b with
    | mk db => exact congrArg String.mk (charListLt_eq_of_not h1 h2)

theorem pathLt_irrefl (a : List String) : pathLt a a = false := by
  induction a with
  | nil => rfl
  | cons x xs ih => simp [pathLt, strLt_irrefl, ih]

theorem pathLt_cons {a b : String} {as bs : List String} :
    pathLt (a :: as) (b :: bs) = true ↔
      strLt a b = true ∨ (a = b ∧ pathLt as bs = true) := by
  simp only [pathLt]
  cases hab : strLt a b with
  | true => simp
  | false =>
    cases hba : strLt b a with
    | true =>
      have hne : ¬ a = b := fun he => by rw [he, strLt_irrefl] at hba; cases hba
      simp [hne]
    | false =>
      have he : a = b := strLt_eq_of_not hab hba
      simp [he]

theorem pathLt_trans :
    ∀ {a b c : List String}, pathLt a b = true → pathLt b c = true →
      pathLt a c = true := by
  intro a
  induction a with
  | nil =>
    intro b c h1 h2
    cases b with
    | nil => cases h1
    | cons y ys =>
      cases c with
      | nil => cases h2
      | cons z zs => rfl
  | cons x xs ih =>
    intro b c h1 h2
    cases b with
    | nil => cases h1
    | cons y ys =>
      cases c with
      | nil => cases h2
      | cons z zs =>
        rw [pathLt_cons] at h1 h2 ⊢
        rcases h1 with h1 | ⟨h1e, h1r⟩
        · rcases h2 with h2 | ⟨h2e, h2r⟩
          · exact Or.inl (strLt_trans h1 h2)
          · exact Or.inl (h2e ▸ h1)
        · rcases h2 with h2 | ⟨h2e, h2r⟩
          · exact Or.inl (h1e ▸ h2)
          · exact Or.inr ⟨h1e.trans h2e, ih h1r h2r⟩

theorem pathLt_asymm {a b : List String} (h : pathLt a b = true) :
    pathLt b a = false := by
  cases hc : pathLt b a with
  | false => rfl
  | true =>
    have := pathLt_trans h hc
    rw [pathLt_irrefl] at this
    cases this

theorem pathLt_eq_of_not :
    ∀ {a b : List String}, pathLt a b = false → pathLt b a = false → a = b := by
  intro a
  induction a with
  | nil =>
    intro b h1 _
    cases b with
    | nil => rfl
    | cons y ys => cases h1
  | cons x xs ih =>
    intro b h1 h2
    cases b with
    | nil => cases h2
    | cons y ys =>
      cases hxy : strLt x y with
      | true =>
        rw [show pathLt (x :: xs) (y :: ys) = true from pathLt_cons.mpr (Or.inl hxy)] at h1
        cases h1
      | false =>
        cases hyx : strLt y x with
        | true =>
          rw [show pathLt (y :: ys) (x :: xs) = true from pathLt_cons.mpr (Or.inl hyx)] at h2
          cases h2
        | false =>
          have he : x = y := strLt_eq_of_not hxy hyx
          subst he
          simp only [pathLt, strLt_irrefl, if_neg (Bool.false_ne_true), if_false] at h1 h2
          exact congrArg (x :: ·) (ih h1 h2)

theorem pathLt_true_of_ne {a b : List String} (h1 : pathLt a b = false) (h2 : a ≠ b) :
    pathLt b a = true := by
  cases h : pathLt b a with
  | true => rfl
  | false => exact absurd (pathLt_eq_of_not h1 h) h2

theorem pairEq_iff {p d : StringValuePathPair} : pairEq p d = true ↔ p.path = d.path := by
  simp [pairEq]

theorem pairLt_path_ne {p q : StringValuePathPair} (h : pairLt p q = true) :
    p.path ≠ q.path := by
  intro he
  rw [pairLt, he, pathLt_irrefl] at h
  cases h

theorem mergeLoopGo_state (snake : String → String) (d : StringValuePathPair) :
    ∀ (L dps : List StringValuePathPair),
      (mergeLoopGo snake d L dps).2.next_default_pair = dps.head? ∧
      (mergeLoopGo snake d L dps).2.default_pairs = dps.tail := by
  intro L
  induction L with
  | nil => intro dps; exact ⟨rfl, rfl⟩
  | cons p ps ih =>
    intro dps
    by_cases h1 : pairEq p d = true
    · simp [mergeLoopGo, h1]
    · by_cases h2 : pairLt p d = true
      · simpa [mergeLoopGo, h1, h2] using ih dps
      · simp [mergeLoopGo, h1, h2]

theorem mergeCollect_none {snake : String → String} {s : MergeState}
    (h : s.next_default_pair = none) : mergeCollect snake s = [] := by
  rw [mergeCollect]
  split
  · rfl
  · rename_i ps heq
    rw [mergeNext, h] at heq
    cases heq

theorem mergeCollect_some {snake : String → String} {s : MergeState}
    {d : StringValuePathPair} (h : s.next_default_pair = some d) :
    mergeCollect snake s =
      (mergeLoopGo snake d (s.next_pair.toList ++ s.pairs) s.default_pairs).1
        :: mergeCollect snake
            (mergeLoopGo snake d (s.next_pair.toList ++ s.pairs) s.default_pairs).2 := by
  rw [mergeCollect]
  split
  · rename_i heq
    rw [mergeNext, h] at heq
    cases heq
  · rename_i ps heq
    rw [mergeNext, h] at heq
    injection heq with heq2
    rw [heq2]

theorem mergeLoopGo_mergeAux (snake : String → String) (d : StringValuePathPair) :
    ∀ (L dps : List StringValuePathPair),
      mergeAux snake L (d :: dps)
        = (mergeLoopGo snake d L dps).1
          :: mergeAux snake
              ((mergeLoopGo snake d L dps).2.next_pair.toList
                ++ (mergeLoopGo snake d L dps).2.pairs) dps := by
  intro L
  induction L with
  | nil => intro dps; simp [mergeAux, mergeLoopGo]
  | cons p ps ih =>
    intro dps
    by_cases h1 : pairEq p d = true
    · simp [mergeAux, mergeLoopGo, h1]
    · by_cases h2 : pairLt p d = true
      · rw [show mergeAux snake (p :: ps) (d :: dps) = mergeAux snake ps (d :: dps) by
          simp [mergeAux, h1, h2]]
        rw [show mergeLoopGo snake d (p :: ps) dps = mergeLoopGo snake d ps dps by
          simp [mergeLoopGo, h1, h2]]
        exact ih dps
      · simp [mergeAux, mergeLoopGo, h1, h2]

theorem mergeCollect_eq (snake : String → String) :
    ∀ (dps : List StringValuePathPair) (d : StringValuePathPair)
      (np : Option StringValuePathPair) (ps : List StringValuePathPair),
      mergeCollect snake ⟨ps, dps, np, some d⟩
        = mergeAux snake (np.toList ++ ps) (d :: dps) := by
  intro dps
  induction dps with
  | nil =>
    intro d np ps
    rw [mergeCollect_some rfl]
    obtain ⟨k1, k2⟩ := mergeLoopGo_state snake d (np.toList ++ ps) []
    rw [mergeCollect_none k1]
    rw [mergeLoopGo_mergeAux snake d (np.toList ++ ps) []]
    simp [mergeAux]
  | cons d2 rest ih =>
    intro d np ps
    rw [mergeCollect_some rfl]
    rw [mergeLoopGo_mergeAux snake d (np.toList ++ ps) (d2 :: rest)]
    congr 1
    obtain ⟨k1, k2⟩ := mergeLoopGo_state snake d (np.toList ++ ps) (d2 :: rest)
    rcases hgo : (mergeLoopGo snake d (np.toList ++ ps) (d2 :: rest)).2 with ⟨gps, gdps, gnp, gnd⟩
    rw [hgo] at k1 k2
    simp only at k1 k2
    subst k1
    subst k2
    exact ih d2 gnp gps

theorem merge_eq_mergeAux (snake : String → String) (L D : List StringValuePathPair) :
    merge snake L D = mergeAux snake L D := by
  cases D with
  | nil =>
    rw [merge, MergeState.new]
    rw [mergeCollect_none rfl]
    simp [mergeAux]
  | cons d ds =>
    rw [merge, MergeState.new]
    simpa using mergeCollect_eq snake ds d none L

theorem mergeAux_paths (snake : String → String) :
    ∀ (L D : List StringValuePathPair),
      (mergeAux snake L D).map (fun e => e.path) = D.map (fun d => d.path) := by
  intro L D
  induction L, D using mergeAux.induct snake with
  | case1 L => simp [mergeAux]
  | case2 d ds ih => simpa [mergeAux, mergeEmitFallback] using ih
  | case3 p ps d ds h ih =>
    simp [mergeAux, h, mergeEmitLiteral, ih, pairEq_iff.mp h]
  | case4 p ps d ds h1 h2 ih =>
    simpa [mergeAux, h1, h2] using ih
  | case5 p ps d ds h1 h2 ih =>
    simpa [mergeAux, h1, h2, mergeEmitFallback] using ih

theorem mergeAux_mem (snake : String → String) :
    ∀ (L D : List StringValuePathPair), ∀ e ∈ mergeAux snake L D,
      (∃ p ∈ L, e = mergeEmitLiteral p) ∨ (∃ d ∈ D, e = mergeEmitFallback snake d) := by
  intro L D
  induction L, D using mergeAux.induct snake with
  | case1 L => simp [mergeAux]
  | case2 d ds ih =>
    intro e he
    rw [mergeAux] at he
    rcases List.mem_cons.mp he with he | he
    · exact Or.inr ⟨d, List.mem_cons_self d ds, he⟩
    · rcases ih e he with h | ⟨d2, hd2, he2⟩
      · exact Or.inl h
      · exact Or.inr ⟨d2, List.mem_cons_of_mem d hd2, he2⟩
  | case3 p ps d ds h ih =>
    intro e he
    rw [mergeAux, if_pos h] at he
    rcases List.mem_cons.mp he with he | he
    · exact Or.inl ⟨p, List.mem_cons_self p ps, he⟩
    · rcases ih e he with ⟨p2, hp2, he2⟩ | ⟨d2, hd2, he2⟩
      · exact Or.inl ⟨p2, List.mem_cons_of_mem p hp2, he2⟩
      · exact Or.inr ⟨d2, List.mem_cons_of_mem d hd2, he2⟩
  | case4 p ps d ds h1 h2 ih =>
    intro e he
    rw [mergeAux, if_neg h1, if_pos h2] at he
    rcases ih e he with ⟨p2, hp2, he2⟩ | h
    · exact Or.inl ⟨p2, List.mem_cons_of_mem p hp2, he2⟩
    · exact Or.inr h
  | case5 p ps d ds h1 h2 ih =>
    intro e he
    rw [mergeAux, if_neg h1, if_neg h2] at he
    rcases List.mem_cons.mp he with he | he
    · exact Or.inr ⟨d, List.mem_cons_self d ds, he⟩
    · rcases ih e he with h | ⟨d2, hd2, he2⟩
      · exact Or.inl h
      · exact Or.inr ⟨d2, List.mem_cons_of_mem d hd2, he2⟩

theorem mergeAux_self (snake : String → String) :
    ∀ (D : List StringValuePathPair), mergeAux snake D D = D.map mergeEmitLiteral := by
  intro D
  induction D with
  | nil => simp [mergeAux]
  | cons d ds ih =>
    have h : pairEq d d = true := pairEq_iff.mpr rfl
    simp [mergeAux, h, ih]

theorem rawQuote_ne_fallbackValue (snake : String → String) (v : String) (p : List String) :
    rawQuote v ≠ fallbackValue snake p := by
  intro h
  have h1 : (rawQuote v).data.head? = some (Char.ofNat 114) := rfl
  rw [h] at h1
  have h2 : (fallbackValue snake p).data.head? = some (Char.ofNat 83) := rfl
  rw [h1] at h2
  cases h2

theorem mergeAux_filter (snake : String → String) :
    ∀ (L D : List StringValuePathPair), Sorted L → Sorted D →
      mergeAux snake L D
        = mergeAux snake
            (L.filter fun q => decide (q.path ∈ D.map (fun x => x.path))) D := by
  intro L D
  induction L, D using mergeAux.induct snake with
  | case1 L =>
    intro _ _
    simp [mergeAux]
  | case2 d ds ih =>
    intro _ _
    simp
  | case3 p ps d ds heq ih =>
    intro hL hD
    have hpd : p.path = d.path := pairEq_iff.mp heq
    obtain ⟨hpall, hLs⟩ := List.pairwise_cons.mp hL
    obtain ⟨_, hDs⟩ := List.pairwise_cons.mp hD
    have hqd : ∀ q ∈ ps, q.path ≠ d.path := by
      intro q hq he
      exact pairLt_path_ne (hpall q hq) (by rw [hpd, he])
    have hfL : ((p :: ps).filter fun q => decide (q.path ∈ (d :: ds).map (fun x => x.path)))
        = p :: (ps.filter fun q => decide (q.path ∈ ds.map (fun x => x.path))) := by
      rw [List.filter_cons, if_pos (by simp [hpd])]
      congr 1
      apply List.filter_congr
      intro q hq
      simp [hqd q hq]
    rw [mergeAux, if_pos heq, hfL, mergeAux, if_pos heq, ih hLs hDs]
  | case4 p ps d ds h1 h2 ih =>
    intro hL hD
    obtain ⟨_, hLs⟩ := List.pairwise_cons.mp hL
    obtain ⟨hdall, _⟩ := List.pairwise_cons.mp hD
    have hne : p.path ≠ d.path := fun he => h1 (pairEq_iff.mpr he)
    have hlt : pathLt p.path d.path = true := h2
    have hnot : ∀ q ∈ ds, p.path ≠ q.path := by
      intro q hq he
      have hdq : pathLt d.path q.path = true := hdall q hq
      rw [← he] at hdq
      have hfalse := pathLt_asymm hdq
      rw [hlt] at hfalse
      cases hfalse
    have hfL : ((p :: ps).filter fun q => decide (q.path ∈ (d :: ds).map (fun x => x.path)))
        = ps.filter fun q => decide (q.path ∈ (d :: ds).map (fun x => x.path)) := by
      rw [List.filter_cons, if_neg]
      simp only [List.map_cons, List.mem_cons, List.mem_map, decide_eq_true_eq]
      rintro (he | ⟨q, hq, he⟩)
      · exact hne he
      · exact hnot q hq he.symm
    rw [mergeAux, if_neg h1, if_pos h2, hfL]
    exact ih hLs hD
  | case5 p ps d ds h1 h2 ih =>
    intro hL hD
    obtain ⟨hpall, hLs⟩ := List.pairwise_cons.mp hL
    obtain ⟨_, hDs⟩ := List.pairwise_cons.mp hD
    have hne : p.path ≠ d.path := fun he => h1 (pairEq_iff.mpr he)
    have hnlt : pathLt p.path d.path = false := by
      cases hc : pathLt p.path d.path with
      | false => rfl
      | true => exact absurd hc h2
    have hdp : pathLt d.path p.path = true := pathLt_true_of_ne hnlt hne
    have hqd : ∀ q ∈ ps, q.path ≠ d.path ∧ pathLt d.path q.path = true := by
      intro q hq
      have hdq : pathLt d.path q.path = true := pathLt_trans hdp (hpall q hq)
      refine ⟨fun he => ?_, hdq⟩
      rw [he, pathLt_irrefl] at hdq
      cases hdq
    have hcong : ps.filter (fun q => decide (q.path ∈ (d :: ds).map (fun x => x.path)))
        = ps.filter fun q => decide (q.path ∈ ds.map (fun x => x.path)) := by
      apply List.filter_congr
      intro q hq
      simp [(hqd q hq).1]
    have hstep : ∀ (X : List StringValuePathPair),
        (∀ q ∈ X, q ∈ ps) →
        mergeAux snake X (d :: ds) = mergeEmitFallback snake d :: mergeAux snake X ds := by
      intro X hX
      cases X with
      | nil => simp [mergeAux]
      | cons q rest =>
        obtain ⟨hqne, hdq⟩ := hqd q (hX q (List.mem_cons_self q rest))
        have hq1 : ¬ pairEq q d = true := fun hc => hqne (pairEq_iff.mp hc)
        have hq2 : ¬ pairLt q d = true := by
          intro hc
          have hfalse := pathLt_asymm hdq
          rw [show pathLt q.path d.path = true from hc] at hfalse
          cases hfalse
        rw [mergeAux, if_neg hq1, if_neg hq2]
    rw [mergeAux, if_neg h1, if_neg h2]
    by_cases hb : p.path ∈ (d :: ds).map (fun x => x.path)
    · have hpds : p.path ∈ ds.map (fun x => x.path) := by
        rcases (by simpa using hb : p.path = d.path ∨ ∃ a ∈ ds, a.path = p.path) with
          he | ⟨a, ha, he⟩
        · exact absurd he hne
        · exact List.mem_map.mpr ⟨a, ha, he⟩
      have hfL : ((p :: ps).filter fun q => decide (q.path ∈ (d :: ds).map (fun x => x.path)))
          = p :: (ps.filter fun q => decide (q.path ∈ ds.map (fun x => x.path))) := by
        rw [List.filter_cons, if_pos (by simpa using hb), hcong]
      rw [hfL, mergeAux, if_neg h1, if_neg h2]
      congr 1
      have hfRaw : ((p :: ps).filter fun q => decide (q.path ∈ ds.map (fun x => x.path)))
          = p :: (ps.filter fun q => decide (q.path ∈ ds.map (fun x => x.path))) := by
        rw [List.filter_cons, if_pos (by simpa using hpds)]
      rw [ih hL hDs, hfRaw]
    · have hpds : p.path ∉ ds.map (fun x => x.path) := by
        intro hmem
        exact hb (by simp [hmem])
      have hfL : ((p :: ps).filter fun q => decide (q.path ∈ (d :: ds).map (fun x => x.path)))
          = ps.filter fun q => decide (q.path ∈ ds.map (fun x => x.path)) := by
        rw [List.filter_cons, if_neg (by simpa using hb), hcong]
      rw [hfL]
      rw [hstep (ps.filter fun q => decide (q.path ∈ ds.map (fun x => x.path)))
        (fun q hq => List.mem_of_mem_filter hq)]
      congr 1
      have hfRaw : ((p :: ps).filter fun q => decide (q.path ∈ ds.map (fun x => x.path)))
          = ps.filter fun q => decide (q.path ∈ ds.map (fun x => x.path)) := by
        rw [List.filter_cons, if_neg (by simpa using hpds)]
      rw [ih hL hDs, hfRaw]

theorem openChunks_counts (snake pascal : String → String) (path : List String) (lo hi : Nat) :
    (openChunks snake pascal path lo hi).countP isOpenChunk = hi - lo ∧
    (openChunks snake pascal path lo hi).countP isCloseChunk = 0 ∧
    (openChunks snake pascal path lo hi).countP isLeafChunk = 0 := by
  refine ⟨?_, ?_, ?_⟩
  · rw [openChunks, List.countP_map]
    exact (List.countP_eq_length.mpr (fun a _ => rfl)).trans (by simp)
  · rw [openChunks, List.countP_map]
    exact List.countP_eq_zero.mpr (fun a _ => by simp [Function.comp, isCloseChunk])
  · rw [openChunks, List.countP_map]
    exact List.countP_eq_zero.mpr (fun a _ => by simp [Function.comp, isLeafChunk])

theorem closeChunks_counts (lo hi : Nat) :
    (closeChunks lo hi).countP isOpenChunk = 0 ∧
    (closeChunks lo hi).countP isCloseChunk = hi - lo ∧
    (closeChunks lo hi).countP isLeafChunk = 0 := by
  refine ⟨?_, ?_, ?_⟩
  · rw [closeChunks, List.countP_map]
    exact List.countP_eq_zero.mpr (fun a _ => by simp [Function.comp, isOpenChunk])
  · rw [closeChunks, List.countP_map]
    exact (List.countP_eq_length.mpr (fun a _ => rfl)).trans (by simp)
  · rw [closeChunks, List.countP_map]
    exact List.countP_eq_zero.mpr (fun a _ => by simp [Function.comp, isLeafChunk])

theorem stepMoves_balance (snake pascal : String → String) (prevLayer : Nat)
    (prevPath : Option (List String)) (pair : StringValuePathPair) :
    (stepMoves snake pascal prevLayer prevPath pair).countP isOpenChunk + prevLayer
      = (stepMoves snake pascal prevLayer prevPath pair).countP isCloseChunk
        + (pair.path.length - 1) ∧
    (stepMoves snake pascal prevLayer prevPath pair).countP isLeafChunk = 0 := by
  rw [stepMoves]
  by_cases hgt : prevLayer < pair.path.length - 1
  · rw [if_pos hgt]
    obtain ⟨o1, o2, o3⟩ := openChunks_counts snake pascal pair.path prevLayer (pair.path.length - 1)
    rw [o1, o2, o3]
    omega
  · rw [if_neg hgt]
    by_cases hlt : pair.path.length - 1 < prevLayer
    · rw [if_pos hlt]
      obtain ⟨c1, c2, c3⟩ := closeChunks_counts (pair.path.length - 1) prevLayer
      rw [c1, c2, c3]
      omega
    · rw [if_neg hlt]
      have heq : pair.path.length - 1 = prevLayer := by omega
      cases prevPath with
      | none => simp [heq]
      | some pp =>
        simp only [Option.elim]
        by_cases hov : commonPrefixLen pair.path pp < prevLayer
        · rw [if_pos hov]
          obtain ⟨c1, c2, c3⟩ := closeChunks_counts (commonPrefixLen pair.path pp) prevLayer
          obtain ⟨o1, o2, o3⟩ :=
            openChunks_counts snake pascal pair.path (commonPrefixLen pair.path pp) prevLayer
          rw [List.countP_append, List.countP_append, List.countP_append]
          rw [c1, c2, c3, o1, o2, o3]
          omega
        · rw [if_neg hov]
          simp [heq]

theorem stepChunks_counts (snake pascal : String → String) (prevLayer : Nat)
    (prevPath : Option (List String)) (pair : StringValuePathPair) :
    (stepChunks snake pascal prevLayer prevPath pair).countP isOpenChunk + prevLayer
      = (stepChunks snake pascal prevLayer prevPath pair).countP isCloseChunk
        + (pair.path.length - 1) ∧
    (stepChunks snake pascal prevLayer prevPath pair).countP isLeafChunk = 1 := by
  obtain ⟨b1, b2⟩ := stepMoves_balance snake pascal prevLayer prevPath pair
  have l1 : ([Chunk.leaf (pair.path.length - 1 + 1)
      (snake (pair.path.getD (pair.path.length - 1) (""))) pair.value]).countP isOpenChunk
      = 0 := rfl
  have l2 : ([Chunk.leaf (pair.path.length - 1 + 1)
      (snake (pair.path.getD (pair.path.length - 1) (""))) pair.value]).countP isCloseChunk
      = 0 := rfl
  have l3 : ([Chunk.leaf (pair.path.length - 1 + 1)
      (snake (pair.path.getD (pair.path.length - 1) (""))) pair.value]).countP isLeafChunk
      = 1 := rfl
  rw [stepChunks, List.countP_append, List.countP_append, List.countP_append, l1, l2, l3]
  constructor
  · omega
  · omega

theorem emitPairs_counts (snake pascal : String → String) :
    ∀ (pairs : List StringValuePathPair) (prevLayer : Nat)
      (prevPath : Option (List String)),
      (emitPairs snake pascal prevLayer prevPath pairs).countP isOpenChunk + prevLayer
        = (emitPairs snake pascal prevLayer prevPath pairs).countP isCloseChunk
          + lastLayer prevLayer pairs ∧
      (emitPairs snake pascal prevLayer prevPath pairs).countP isLeafChunk = pairs.length := by
  intro pairs
  induction pairs with
  | nil => intro prevLayer prevPath; simp [emitPairs, lastLayer]
  | cons pair rest ih =>
    intro prevLayer prevPath
    obtain ⟨s1, s2⟩ := stepChunks_counts snake pascal prevLayer prevPath pair
    obtain ⟨i1, i2⟩ := ih (pair.path.length - 1) (some pair.path)
    rw [emitPairs, lastLayer]
    simp only [List.countP_append, List.length_cons]
    exact ⟨by omega, by omega⟩

theorem not_literal_and_fallback (snake : String → String) (e : StringValuePathPair) :
    ¬(IsLiteralEntry e ∧ IsFallbackEntry snake e) := by
  rintro ⟨⟨v, hv⟩, hf⟩
  exact rawQuote_ne_fallbackValue snake v e.path (by rw [← hv, hf])

/-- Claim C1: for every sorted non-empty default catalog `D` and every sorted
locale catalog `L`, `merge snake L D` yields exactly `D.length` entries whose
key-path sequence equals `D`'s key-path sequence in `D`'s order, with each
position exactly one of a literal or a fallback reference. -/
theorem merge_shape (snake : String → String) (L D : List StringValuePathPair)
    (hL : Sorted L) (hD : Sorted D) (hne : D ≠ []) : MergeShapeOk snake L D := by
  refine ⟨?_, ?_, ?_⟩
  · have hlen := congrArg List.length (mergeAux_paths snake L D)
    rw [merge_eq_mergeAux]
    simpa using hlen
  · rw [merge_eq_mergeAux]
    exact mergeAux_paths snake L D
  · intro e he
    rw [merge_eq_mergeAux] at he
    refine ⟨?_, not_literal_and_fallback snake e⟩
    rcases mergeAux_mem snake L D e he with ⟨p, _, hep⟩ | ⟨d, _, hed⟩
    · exact Or.inl ⟨p.value, by rw [hep]; rfl⟩
    · exact Or.inr (by rw [hed]; rfl)

/-- Witness for C1: concrete sorted catalogs satisfying the hypotheses. -/
theorem merge_shape_witness :
    (Sorted ([] : List StringValuePathPair) ∧ Sorted [⟨["a"], "x"⟩] ∧
      ([⟨["a"], "x"⟩] : List StringValuePathPair) ≠ []) ∧
    MergeShapeOk id [] [⟨["a"], "x"⟩] :=
  ⟨⟨by decide, by decide, by decide⟩,
    merge_shape id [] [⟨["a"], "x"⟩] (by decide) (by decide) (by decide)⟩

/-- Claim C7: for every sorted non-empty default catalog `D`, merging `D`
with itself yields only literal entries carrying `D`'s own values, and no
fallback reference, at every position. -/
theorem merge_self (snake : String → String) (D : List StringValuePathPair)
    (hD : Sorted D) (hne : D ≠ []) : MergeSelfLiteral snake D := by
  constructor
  · rw [merge_eq_mergeAux]
    exact mergeAux_self snake D
  · intro e he hf
    rw [merge_eq_mergeAux, mergeAux_self] at he
    rcases List.mem_map.mp he with ⟨p, _, hep⟩
    exact rawQuote_ne_fallbackValue snake p.value e.path (by rw [← hf, ← hep]; rfl)

/-- Witness for C7: a concrete sorted non-empty default catalog. -/
theorem merge_self_witness :
    (Sorted [⟨["a"], "x"⟩] ∧ ([⟨["a"], "x"⟩] : List StringValuePathPair) ≠ []) ∧
    MergeSelfLiteral id [⟨["a"], "x"⟩] :=
  ⟨⟨by decide, by decide⟩, merge_self id [⟨["a"], "x"⟩] (by decide) (by decide)⟩

/-- Claim C8: for every sorted default catalog `D` and sorted locale catalog
`L`, locale entries whose path is absent from `D` are silently skipped: they
never appear in the output, and the output equals the merge of `D` with `L`
minus those entries. -/
theorem merge_drops (snake : String → String) (L D : List StringValuePathPair)
    (hL : Sorted L) (hD : Sorted D) : MergeDropsOrphans snake L D := by
  constructor
  · rw [merge_eq_mergeAux, merge_eq_mergeAux]
    exact mergeAux_filter snake L D hL hD
  · intro q hq hqnot e he hpe
    rw [merge_eq_mergeAux] at he
    have hmem : e.path ∈ D.map (fun d => d.path) := by
      rw [← mergeAux_paths snake L D]
      exact List.mem_map.mpr ⟨e, he, rfl⟩
    rw [hpe] at hmem
    exact hqnot hmem

/-- Witness for C8: a locale catalog with an extraneous path `a` absent from
the default catalog. -/
theorem merge_drops_witness :
    (Sorted [⟨["a"], "v"⟩, ⟨["b"], "w"⟩] ∧ Sorted [⟨["b"], "y"⟩]) ∧
    MergeDropsOrphans id [⟨["a"], "v"⟩, ⟨["b"], "w"⟩] [⟨["b"], "y"⟩] :=
  ⟨⟨by decide, by decide⟩,
    merge_drops id [⟨["a"], "v"⟩, ⟨["b"], "w"⟩] [⟨["b"], "y"⟩] (by decide) (by decide)⟩

/-- Claim C9: every default path missing from the locale catalog is emitted
as the symbolic `STRINGS_DEFAULT.`-reference naming the default instance's
same-path field, never as a raw-quoted copy of any value string. -/
theorem merge_fallbacks (snake : String → String) (L D : List StringValuePathPair)
    (hL : Sorted L) (hD : Sorted D) : FallbacksSymbolic snake L D := by
  intro d hd hdnot
  constructor
  · have hmem : d.path ∈ (mergeAux snake L D).map (fun e => e.path) := by
      rw [mergeAux_paths snake L D]
      exact List.mem_map.mpr ⟨d, hd, rfl⟩
    rcases List.mem_map.mp hmem with ⟨e, he, hep⟩
    exact ⟨e, by rw [merge_eq_mergeAux]; exact he, hep⟩
  · intro e he hep
    rw [merge_eq_mergeAux] at he
    rcases mergeAux_mem snake L D e he with ⟨p, hp, hepl⟩ | ⟨d2, _, hefb⟩
    · exfalso
      apply hdnot
      rw [← hep, hepl]
      exact List.mem_map.mpr ⟨p, hp, rfl⟩
    · subst hefb
      simp only [mergeEmitFallback] at hep ⊢
      rw [hep]
      refine ⟨rfl, ?_⟩
      intro v hv
      exact rawQuote_ne_fallbackValue snake v d.path (by rw [← hv])

/-- Witness for C9: the default path `b` is missing from the locale catalog. -/
theorem merge_fallbacks_witness :
    (Sorted [⟨["a"], "v"⟩] ∧ Sorted [⟨["b"], "y"⟩]) ∧
    FallbacksSymbolic id [⟨["a"], "v"⟩] [⟨["b"], "y"⟩] :=
  ⟨⟨by decide, by decide⟩,
    merge_fallbacks id [⟨["a"], "v"⟩] [⟨["b"], "y"⟩] (by decide) (by decide)⟩

/-- Claim C6: for every input entry sequence (of non-empty key paths), the
instance emitter's opening and closing markers balance exactly, and exactly
one leaf field assignment is emitted per input entry. -/
theorem instance_balanced (snake pascal : String → String) (name : String)
    (pairs : List StringValuePathPair) (hpaths : ∀ p ∈ pairs, p.path ≠ []) :
    (generate_locales_strings_instance snake pascal name pairs).countP isOpenChunk
      = (generate_locales_strings_instance snake pascal name pairs).countP isCloseChunk
    ∧ (generate_locales_strings_instance snake pascal name pairs).countP isLeafChunk
      = pairs.length := by
  obtain ⟨e1, e2⟩ := emitPairs_counts snake pascal pairs 0 none
  obtain ⟨c1, c2, c3⟩ := closeChunks_counts 0 (lastLayer 0 pairs)
  have f1 : ([Chunk.instFooter]).countP isOpenChunk = 0 := rfl
  have f2 : ([Chunk.instFooter]).countP isCloseChunk = 0 := rfl
  have f3 : ([Chunk.instFooter]).countP isLeafChunk = 0 := rfl
  have hh1 : isOpenChunk (Chunk.instHeader name) = false := rfl
  have hh2 : isCloseChunk (Chunk.instHeader name) = false := rfl
  have hh3 : isLeafChunk (Chunk.instHeader name) = false := rfl
  rw [generate_locales_strings_instance]
  simp only [List.countP_cons, List.countP_append, hh1, hh2, hh3, f1, f2, f3,
    c1, c2, c3, Bool.false_eq_true, if_false]
  omega

/-- Witness for C6: a concrete entry sequence with non-empty paths. -/
theorem instance_balanced_witness :
    (∀ p ∈ ([⟨["a"], "v"⟩] : List StringValuePathPair), p.path ≠ []) ∧
    ((generate_locales_strings_instance id id ("X") [⟨["a"], "v"⟩]).countP isOpenChunk
      = (generate_locales_strings_instance id id ("X") [⟨["a"], "v"⟩]).countP isCloseChunk
    ∧ (generate_locales_strings_instance id id ("X") [⟨["a"], "v"⟩]).countP isLeafChunk
      = ([⟨["a"], "v"⟩] : List StringValuePathPair).length) :=
  ⟨by decide, instance_balanced id id ("X") [⟨["a"], "v"⟩] (by decide)⟩

/-- Claim C2 counterexample: on the leaf-and-prefix input `[(a), (a,b)]`,
`generate_locales_strings_struct` does not fail at all; it emits a schema in
which the root record carries the field name twice, once leaf-typed and once
nested-typed, and defines the nested record afterwards. -/
theorem struct_leaf_prefix_counterexample :
    generate_locales_strings_struct id id [["a"], ["a", "b"]]
      = [Chunk.rootHeader, Chunk.leafField ("a"), Chunk.nestedField ("a") ("a"),
         Chunk.closeStruct, Chunk.structHeader ("a"), Chunk.leafField ("b"),
         Chunk.schemaFooter] := by
  decide

/-- Claim C2 amended: for any naming functions, schema compilation of
`[(a), (a,b)]` succeeds (no `SchemaConflict` error exists in the code) and
emits the root record with the same key both as a leaf field and as a nested
field, leaving the conflict to the downstream Rust compiler. -/
theorem struct_leaf_prefix_emits_conflict (snake pascal : String → String) :
    generate_locales_strings_struct snake pascal [["a"], ["a", "b"]]
      = [Chunk.rootHeader, Chunk.leafField (snake ("a")),
         Chunk.nestedField (snake ("a")) (pascalConcat pascal (["a"])),
         Chunk.closeStruct, Chunk.structHeader (pascalConcat pascal (["a"])),
         Chunk.leafField (snake ("b")), Chunk.schemaFooter] := by
  rfl

/-- Claim C4 evaluated at its failing input: the sorted paths
`[(a,x,p), (b,x,q)]` have distinct layer-2 prefixes `(a,x)` and `(b,x)`, yet
the emitter opens a single record (named from `(a,x)`) holding both leaves,
emits an empty record for `(b)`, and never defines a record for `(b,x)`:
grouping compares only the segment at index `layer - 1`, and the
`previous_property` tracking additionally suppresses the `x` field of the
second group. -/
theorem struct_prefix_grouping_bug :
    generate_locales_strings_struct id id [["a", "x", "p"], ["b", "x", "q"]]
      = [Chunk.rootHeader, Chunk.nestedField ("a") ("a"), Chunk.nestedField ("b") ("b"),
         Chunk.closeStruct, Chunk.structHeader ("a"), Chunk.nestedField ("x") ("ax"),
         Chunk.closeStruct, Chunk.structHeader ("b"),
         Chunk.closeStruct, Chunk.structHeader ("ax"),
         Chunk.leafField ("p"), Chunk.leafField ("q"),
         Chunk.schemaFooter] := by
  decide

/-- Claim C5 evaluated at its failing input: for entries `(a,b)` then
`(c,d,e)` the longest common prefix has length 0, so the emitter should close
the open group `a` and open groups `c` and `cd`; instead the `Greater` branch
closes nothing and opens only the depth-1 group named from `(c,d)` inside the
still-open group `a`, never opening a group for `c`. -/
theorem instance_diverging_lengthen_bug :
    generate_locales_strings_instance id id ("X")
        [⟨["a", "b"], "v1"⟩, ⟨["c", "d", "e"], "v2"⟩]
      = [Chunk.instHeader ("X"), Chunk.openGroup 1 ("a") ("a"),
         Chunk.leaf 2 ("b") ("v1"), Chunk.openGroup 2 ("d") ("cd"),
         Chunk.leaf 3 ("e") ("v2"), Chunk.closeGroup 2, Chunk.closeGroup 1,
         Chunk.instFooter] := by
  decide

/-- Claim C3 counterexample: a storage whose default catalog is present but
empty is not rejected; generation succeeds. -/
theorem empty_default_processed :
    (generate_locales id id id id ⟨[("en", [])], "en"⟩).isOk = true := by
  rfl

/-- Claim C3 amended: when the default catalog is absent, generation fails
with the missing-default error and produces no output; an empty (but
present) default catalog is processed, not rejected. -/
theorem absent_default_errors (snake pascal screaming kebab : String → String)
    (storage : Storage) (h : storage.get_default = none) :
    generate_locales snake pascal screaming kebab storage
      = .error "failed to get default locale in i18n storage" := by
  unfold generate_locales
  rw [h]

/-- Witness for the amended C3: a storage with no catalog for the default
locale. -/
theorem absent_default_errors_witness :
    (Storage.get_default ⟨[], "en"⟩ = none) ∧
    generate_locales id id id id ⟨[], "en"⟩
      = .error "failed to get default locale in i18n storage" :=
  ⟨rfl, absent_default_errors id id id id ⟨[], "en"⟩ rfl⟩

theorem fromStrArms_enum (pascal screaming kebab : String → String) (storage : Storage) :
    fromStrArms (generate_locales_enum pascal screaming kebab storage)
      = storage.all_locales.map (fun l => (trimStr (toLowerStr l), pascal l)) := by
  rw [generate_locales_enum, fromStrArms]
  simp only [List.filterMap_append, List.filterMap_cons, List.filterMap_map,
    List.filterMap_nil]
  have n1 : List.filterMap ((fun c =>
      match c with
      | Chunk.fromStrArm pat variant => some (pat, variant)
      | _ => none) ∘ fun l => Chunk.enumVariant (pascal l)) storage.all_locales = [] :=
    List.filterMap_eq_nil_iff.mpr (fun a _ => rfl)
  have n2 : List.filterMap ((fun c =>
      match c with
      | Chunk.fromStrArm pat variant => some (pat, variant)
      | _ => none) ∘ fun l => Chunk.stringsArm (pascal l)
        (if l = storage.default_locale then "DEFAULT" else screaming l))
      storage.all_locales = [] :=
    List.filterMap_eq_nil_iff.mpr (fun a _ => rfl)
  have n3 : List.filterMap ((fun c =>
      match c with
      | Chunk.fromStrArm pat variant => some (pat, variant)
      | _ => none) ∘ fun l => Chunk.asStrArm (pascal l) (kebab l)) storage.all_locales = [] :=
    List.filterMap_eq_nil_iff.mpr (fun a _ => rfl)
  have n4 : ((fun c =>
      match c with
      | Chunk.fromStrArm pat variant => some (pat, variant)
      | _ => none) ∘ fun l => Chunk.fromStrArm (trimStr (toLowerStr l)) (pascal l))
      = some ∘ (fun l => (trimStr (toLowerStr l), pascal l)) := funext fun l => rfl
  rw [n1, n2, n3, n4, List.filterMap_eq_map]
  simp

/-- Claim C10: in the emitted `From<&str>` conversion, every input string
that, after lowercasing and trimming, matches no locale identifier's
lowercased-and-trimmed form is mapped to the `DEFAULT_LOCALE` constant; the
conversion is total by construction. -/
theorem from_str_total_default (pascal screaming kebab : String → String)
    (storage : Storage) (s : String)
    (h : ∀ l ∈ storage.all_locales, trimStr (toLowerStr l) ≠ trimStr (toLowerStr s)) :
    localesFromStr pascal screaming kebab storage s = "DEFAULT_LOCALE" := by
  rw [localesFromStr, fromStrArms_enum]
  have hnone : (storage.all_locales.map
        (fun l => (trimStr (toLowerStr l), pascal l))).find?
      (fun a => decide (a.1 = trimStr (toLowerStr s))) = none := by
    rw [List.find?_eq_none]
    intro x hx
    rcases List.mem_map.mp hx with ⟨l, hl, hxl⟩
    subst hxl
    simp [h l hl]
  rw [hnone]

/-- Witness for C10: the storage knows only `en`; `zz` matches no arm. -/
theorem from_str_total_default_witness :
    (∀ l ∈ Storage.all_locales ⟨[("en", [])], "en"⟩,
      trimStr (toLowerStr l) ≠ trimStr (toLowerStr ("zz"))) ∧
    localesFromStr id id id ⟨[("en", [])], "en"⟩ ("zz") = "DEFAULT_LOCALE" :=
  ⟨by decide, from_str_total_default id id id ⟨[("en", [])], "en"⟩ ("zz") (by decide)⟩

end News
